import Mathlib

/-!
Verification of the BSD numerical-research workflow excerpt:
`src/04_renorm_matrix_demo.py`, `src/save_utils.py`, `src/view_results.py`.

The Python code is shallowly embedded below: the trial-division factor
loop and the Vandermonde-style matrix construction from
`04_renorm_matrix_demo.py`, the value serializer and JSON result writer
from `save_utils.py`, and the latest-file selection from
`view_results.py`.  Python ints are modelled as `Int`/`Nat`, Python
floats as `ℚ` (exact payloads; every float operation performed by the
code on these values — `float(x)` on a float, attribute access — is
exact), real-valued mathematics (logarithms, determinants) as `ℝ`.
-/

/-! ## Trial-division factor loop (`04_renorm_matrix_demo.py`, lines 19-27)

Python source:
```
m_primes = []
q = N
p = 2
while p*p <= q:
    while q % p == 0:
        if p not in m_primes: m_primes.append(p)
        q //= p
    p += 1
if q > 1: m_primes.append(q)
```
The two `while` loops become `inner_loop` (the `q % p == 0` loop) and
`outer_loop` (the `p*p <= q` loop).  The guards `2 ≤ p` and `0 < q` are
added to the loop conditions purely to make the loops terminating: they
hold at every state reachable from `m_primes N` (p starts at 2 and only
increases; q starts at N and remains positive whenever the loop body
runs), so the embedding agrees with the Python code on every input N. -/

def inner_loop (p : Nat) (q : Nat) (acc : List Nat) : Nat × List Nat :=
  if h : 2 ≤ p ∧ 0 < q ∧ q % p = 0 then
    inner_loop p (q / p) (if p ∈ acc then acc else acc ++ [p])
  else
    (q, acc)
termination_by q
decreasing_by exact Nat.div_lt_self h.2.1 (by omega)

theorem inner_loop_fst_le (p : Nat) : ∀ q acc, (inner_loop p q acc).1 ≤ q := by
  intro q
  induction q using Nat.strong_induction_on with
  | _ q ih =>
    intro acc
    rw [inner_loop]
    split
    · next h =>
      have hlt : q / p < q := Nat.div_lt_self h.2.1 (by omega)
      exact le_trans (ih _ hlt _) (Nat.le_of_lt hlt)
    · exact le_refl q

def outer_loop (p : Nat) (q : Nat) (acc : List Nat) : Nat × List Nat :=
  if h : 2 ≤ p ∧ p * p ≤ q then
    let r := inner_loop p q acc
    outer_loop (p + 1) r.1 r.2
  else
    (q, acc)
termination_by q + 2 - p
decreasing_by
  have h1 : (inner_loop p q acc).1 ≤ q := inner_loop_fst_le p q acc
  have h2 : p ≤ q := le_trans (Nat.le_mul_of_pos_left p (by omega)) h.2
  omega

def m_primes (N : Nat) : List Nat :=
  let r := outer_loop 2 N []
  if r.1 > 1 then r.2 ++ [r.1] else r.2

/-- Full behaviour of the inner division loop: it returns `q` with all
factors `p` removed (so `q = p ^ k * q'` with `p ∤ q'`), and appends `p`
to the accumulator exactly when `p` divides `q` and was not yet present. -/
theorem inner_loop_spec (p : Nat) (hp : 2 ≤ p) :
    ∀ q acc, 0 < q →
      0 < (inner_loop p q acc).1 ∧
      (∃ k, q = p ^ k * (inner_loop p q acc).1) ∧
      ¬ p ∣ (inner_loop p q acc).1 ∧
      (inner_loop p q acc).2 = (if p ∣ q ∧ p ∉ acc then acc ++ [p] else acc) := by
  intro q
  induction q using Nat.strong_induction_on with
  | _ q ih =>
    intro acc hq
    rw [inner_loop]
    split
    · next h =>
      have hdvd : p ∣ q := Nat.dvd_of_mod_eq_zero h.2.2
      have hlt : q / p < q := Nat.div_lt_self hq (by omega)
      have hqp : 0 < q / p := Nat.div_pos (Nat.le_of_dvd hq hdvd) (by omega)
      have hmul : q = p * (q / p) := (Nat.mul_div_cancel' hdvd).symm
      by_cases hacc : p ∈ acc
      · rw [if_pos hacc]
        obtain ⟨h1, ⟨k, hk⟩, h3, h4⟩ := ih (q / p) hlt acc hqp
        refine ⟨h1, ⟨k + 1, ?_⟩, h3, ?_⟩
        · generalize (inner_loop p (q / p) acc).1 = B at hk ⊢
          rw [hmul, hk]; ring
        · rw [h4, if_neg (fun hc => hc.2 hacc), if_neg (fun hc => hc.2 hacc)]
      · rw [if_neg hacc]
        obtain ⟨h1, ⟨k, hk⟩, h3, h4⟩ := ih (q / p) hlt (acc ++ [p]) hqp
        have hmem : p ∈ acc ++ [p] := List.mem_append_right _ (List.mem_singleton.mpr rfl)
        refine ⟨h1, ⟨k + 1, ?_⟩, h3, ?_⟩
        · generalize (inner_loop p (q / p) (acc ++ [p])).1 = B at hk ⊢
          rw [hmul, hk]; ring
        · rw [h4, if_neg (fun hc => hc.2 hmem), if_pos ⟨hdvd, hacc⟩]
    · next h =>
      have hnd : ¬ p ∣ q := by
        intro hd
        obtain ⟨c, rfl⟩ := hd
        exact h ⟨hp, hq, Nat.mul_mod_right p c⟩
      exact ⟨hq, ⟨0, by simp⟩, hnd, by simp [hnd]⟩

/-- Invariant of the outer trial-division loop, relative to the original
input `N`: the candidate divisor is at least 2, the remaining quotient is
a positive divisor of `N` whose prime factors are all at least the
candidate, the accumulator holds primes dividing `N` that are below the
candidate, strictly sorted, and every prime factor of `N` is accounted
for (already in the accumulator or still dividing the quotient). -/
def OuterInv (N p q : Nat) (acc : List Nat) : Prop :=
  2 ≤ p ∧ 0 < q ∧ q ∣ N ∧
  (∀ r, Nat.Prime r → r ∣ q → p ≤ r) ∧
  (∀ a ∈ acc, Nat.Prime a ∧ a ∣ N ∧ a < p) ∧
  List.Sorted (· < ·) acc ∧
  (∀ r, Nat.Prime r → r ∣ N → r ∈ acc ∨ r ∣ q)

/-- One pass of the outer loop body preserves the invariant, moving the
candidate divisor from `p` to `p + 1`. -/
theorem outer_step (N p q : Nat) (acc : List Nat) (hinv : OuterInv N p q acc)
    (hpq : p * p ≤ q) :
    OuterInv N (p + 1) (inner_loop p q acc).1 (inner_loop p q acc).2 := by
  obtain ⟨hp, hq, hqN, hmin, hacc, hsort, hcompl⟩ := hinv
  obtain ⟨h1, ⟨k, hk⟩, h3, h4⟩ := inner_loop_spec p hp q acc hq
  have hdvdq : (inner_loop p q acc).1 ∣ q := by
    conv_rhs => rw [hk]
    exact dvd_mul_left _ _
  have hpprime_of_dvd : p ∣ q → Nat.Prime p := by
    intro hpq'
    have hne1 : p ≠ 1 := by omega
    have hmf := Nat.minFac_dvd p
    have hmfp := Nat.minFac_prime hne1
    have : p ≤ p.minFac := hmin _ hmfp (dvd_trans hmf hpq')
    have : p.minFac = p := le_antisymm (Nat.minFac_le (by omega)) this
    rwa [← this]
  refine ⟨by omega, h1, dvd_trans hdvdq hqN, ?_, ?_, ?_, ?_⟩
  · -- prime factors of the new quotient exceed p
    intro r hr hrq
    have hrge : p ≤ r := hmin r hr (dvd_trans hrq hdvdq)
    rcases Nat.lt_or_ge p r with hlt | hge
    · omega
    · have : r = p := le_antisymm hge hrge
      exact absurd (this ▸ hrq) h3
  · -- accumulator elements: prime, divide N, below p + 1
    intro a ha
    rw [h4] at ha
    by_cases hcd : p ∣ q ∧ p ∉ acc
    · rw [if_pos hcd] at ha
      rcases List.mem_append.mp ha with ha' | ha'
      · obtain ⟨hap, haN, halt⟩ := hacc a ha'
        exact ⟨hap, haN, by omega⟩
      · have : a = p := List.mem_singleton.mp ha'
        subst this
        exact ⟨hpprime_of_dvd hcd.1, dvd_trans hcd.1 hqN, by omega⟩
    · rw [if_neg hcd] at ha
      obtain ⟨hap, haN, halt⟩ := hacc a ha
      exact ⟨hap, haN, by omega⟩
  · -- accumulator stays strictly sorted
    rw [h4]
    by_cases hcd : p ∣ q ∧ p ∉ acc
    · rw [if_pos hcd]
      rw [List.Sorted, List.pairwise_append]
      exact ⟨hsort, List.pairwise_singleton _ _,
        fun a ha b hb => (List.mem_singleton.mp hb) ▸ (hacc a ha).2.2⟩
    · rwa [if_neg hcd]
  · -- completeness: every prime factor of N is in the accumulator or the quotient
    intro r hr hrN
    have hsub : acc ⊆ (inner_loop p q acc).2 := by
      rw [h4]
      by_cases hcd : p ∣ q ∧ p ∉ acc
      · rw [if_pos hcd]; exact List.subset_append_left _ _
      · rw [if_neg hcd]; exact List.Subset.refl _
    rcases hcompl r hr hrN with hin | hdq
    · exact Or.inl (hsub hin)
    · -- r divides the old quotient q = p ^ k * q'
      have : r ∣ p ^ k * (inner_loop p q acc).1 := hk ▸ hdq
      rcases (Nat.Prime.dvd_mul hr).mp this with hrpk | hrq'
      · have hrp : r ∣ p := Nat.Prime.dvd_of_dvd_pow hr hrpk
        have hrgep : p ≤ r := hmin r hr hdq
        have hrlep : r ≤ p := Nat.le_of_dvd (by omega) hrp
        have hreq : r = p := le_antisymm hrlep hrgep
        subst hreq
        left
        rw [h4]
        by_cases hmem : r ∈ acc
        · have : (if r ∣ q ∧ r ∉ acc then acc ++ [r] else acc) = acc := by
            rw [if_neg (fun hc => hc.2 hmem)]
          rw [this]; exact hmem
        · rw [if_pos ⟨hdq, hmem⟩]
          exact List.mem_append_right _ (List.mem_singleton.mpr rfl)
      · exact Or.inr hrq'

/-- Running the outer loop from an invariant state lands in an invariant
state whose quotient is below the square of the final candidate divisor. -/
theorem outer_loop_spec (N : Nat) : ∀ n p q acc, q + 2 - p ≤ n → OuterInv N p q acc →
    ∃ p', p ≤ p' ∧ OuterInv N p' (outer_loop p q acc).1 (outer_loop p q acc).2 ∧
      (outer_loop p q acc).1 < p' * p' := by
  intro n
  induction n with
  | zero =>
    intro p q acc hfuel hinv
    have hp : 2 ≤ p := hinv.1
    have : ¬ (2 ≤ p ∧ p * p ≤ q) := by
      rintro ⟨-, hpq⟩
      have : p ≤ p * p := Nat.le_mul_of_pos_left p (by omega)
      omega
    rw [outer_loop, dif_neg this]
    refine ⟨p, le_refl p, hinv, ?_⟩
    have : p ≤ p * p := Nat.le_mul_of_pos_left p (by omega)
    omega
  | succ n ih =>
    intro p q acc hfuel hinv
    have hp : 2 ≤ p := hinv.1
    rw [outer_loop]
    by_cases hcond : 2 ≤ p ∧ p * p ≤ q
    · rw [dif_pos hcond]
      have hstep := outer_step N p q acc hinv hcond.2
      have hle : (inner_loop p q acc).1 ≤ q := inner_loop_fst_le p q acc
      have hpleq : p ≤ q := by
        have : p ≤ p * p := Nat.le_mul_of_pos_left p (by omega)
        omega
      obtain ⟨p', hp', hinv', hlt'⟩ := ih (p + 1) (inner_loop p q acc).1 (inner_loop p q acc).2
        (by omega) hstep
      exact ⟨p', by omega, hinv', hlt'⟩
    · rw [dif_neg hcond]
      refine ⟨p, le_refl p, hinv, ?_⟩
      have : p ≤ p * p := Nat.le_mul_of_pos_left p (by omega)
      omega

/-- A number above 1 all of whose prime factors are at least `p`, and
which is below `p * p`, is itself prime. -/
theorem prime_of_small (p q : Nat) (hq : 1 < q) (hlt : q < p * p)
    (hmin : ∀ r, Nat.Prime r → r ∣ q → p ≤ r) : Nat.Prime q := by
  have hmfp : Nat.Prime q.minFac := Nat.minFac_prime (by omega)
  have hmfd : q.minFac ∣ q := Nat.minFac_dvd q
  have hge : p ≤ q.minFac := hmin _ hmfp hmfd
  rcases eq_or_ne (q / q.minFac) 1 with h1 | h1
  · have : q = q.minFac := by
      have := Nat.div_mul_cancel hmfd
      rw [h1, one_mul] at this
      omega
    rwa [this]
  · exfalso
    have hqpos : 0 < q := by omega
    have hdvd2 : q / q.minFac ∣ q := Nat.div_dvd_of_dvd hmfd
    have hpos2 : 0 < q / q.minFac := Nat.div_pos (Nat.minFac_le hqpos) (Nat.minFac_pos q)
    have hmfp2 : Nat.Prime (q / q.minFac).minFac := Nat.minFac_prime h1
    have hmfd2 : (q / q.minFac).minFac ∣ q / q.minFac := Nat.minFac_dvd _
    have hge2 : p ≤ (q / q.minFac).minFac := hmin _ hmfp2 (dvd_trans hmfd2 hdvd2)
    have hle2 : (q / q.minFac).minFac ≤ q / q.minFac := Nat.minFac_le hpos2
    have hmul : q.minFac * (q / q.minFac) = q := Nat.mul_div_cancel' hmfd
    have : p * p ≤ q.minFac * (q / q.minFac) :=
      Nat.mul_le_mul hge (le_trans hge2 hle2)
    omega

/-- Main factor-loop correctness: for `N ≥ 1` the list built by the
trial-division code is strictly increasing and contains exactly the
prime divisors of `N`. -/
theorem m_primes_main (N : Nat) (hN : 1 ≤ N) :
    List.Sorted (· < ·) (m_primes N) ∧
    (∀ r, r ∈ m_primes N ↔ (Nat.Prime r ∧ r ∣ N)) := by
  have hinit : OuterInv N 2 N [] := by
    refine ⟨le_refl 2, by omega, dvd_refl N, ?_, ?_, List.sorted_nil, ?_⟩
    · intro r hr _
      exact hr.two_le
    · intro a ha
      simp at ha
    · intro r _ hrN
      exact Or.inr hrN
  obtain ⟨p', hp', hinv', hlt'⟩ := outer_loop_spec N N 2 N [] (by omega) hinit
  obtain ⟨hp2, hqpos, hqN, hmin, hacc, hsort, hcompl⟩ := hinv'
  rw [m_primes]
  by_cases hq1 : (outer_loop 2 N []).1 > 1
  · -- residual quotient is > 1: it is prime and gets appended
    rw [if_pos hq1]
    have hqprime : Nat.Prime (outer_loop 2 N []).1 :=
      prime_of_small p' _ hq1 hlt' hmin
    have hpleq : p' ≤ (outer_loop 2 N []).1 := hmin _ hqprime (dvd_refl _)
    constructor
    · rw [List.Sorted, List.pairwise_append]
      refine ⟨hsort, List.pairwise_singleton _ _, ?_⟩
      intro a ha b hb
      have hb' : b = (outer_loop 2 N []).1 := List.mem_singleton.mp hb
      have := (hacc a ha).2.2
      omega
    · intro r
      constructor
      · intro hr
        rcases List.mem_append.mp hr with hr' | hr'
        · exact ⟨(hacc r hr').1, (hacc r hr').2.1⟩
        · have : r = (outer_loop 2 N []).1 := List.mem_singleton.mp hr'
          subst this
          exact ⟨hqprime, hqN⟩
      · rintro ⟨hrp, hrN⟩
        rcases hcompl r hrp hrN with hin | hdq
        · exact List.mem_append_left _ hin
        · have : r = (outer_loop 2 N []).1 :=
            (Nat.prime_dvd_prime_iff_eq hrp hqprime).mp hdq
          subst this
          exact List.mem_append_right _ (List.mem_singleton.mpr rfl)
  · -- residual quotient is 1: the accumulator is already complete
    rw [if_neg hq1]
    have hq1' : (outer_loop 2 N []).1 = 1 := by omega
    refine ⟨hsort, ?_⟩
    intro r
    constructor
    · intro hr
      exact ⟨(hacc r hr).1, (hacc r hr).2.1⟩
    · rintro ⟨hrp, hrN⟩
      rcases hcompl r hrp hrN with hin | hdq
      · exact hin
      · rw [hq1'] at hdq
        have := Nat.le_of_dvd (by omega) hdq
        have := hrp.two_le
        omega

/-- C2: For every positive integer N ≥ 1, the trial-division factorization
loop produces a generator set that is exactly the distinct prime factors of
N, each appearing once, ordered ascending (with the residual, if any,
appended last and numerically largest — implied by strict sortedness), and
the product of these primes with their original multiplicities equals N. -/
theorem C2_m_primes_correct (N : Nat) (hN : 1 ≤ N) :
    List.Sorted (· < ·) (m_primes N) ∧
    (m_primes N).Nodup ∧
    (∀ r, r ∈ m_primes N ↔ (Nat.Prime r ∧ r ∣ N)) ∧
    (m_primes N).toFinset = N.primeFactors ∧
    (∏ p ∈ (m_primes N).toFinset, p ^ N.factorization p) = N := by
  obtain ⟨hsort, hmem⟩ := m_primes_main N hN
  have hfin : (m_primes N).toFinset = N.primeFactors := by
    ext r
    rw [List.mem_toFinset, hmem r, Nat.mem_primeFactors]
    constructor
    · rintro ⟨h1, h2⟩; exact ⟨h1, h2, by omega⟩
    · rintro ⟨h1, h2, _⟩; exact ⟨h1, h2⟩
  refine ⟨hsort, hsort.nodup, hmem, hfin, ?_⟩
  rw [hfin]
  have hdef : N.factorization.prod (fun p k => p ^ k) =
      ∏ p ∈ N.factorization.support, p ^ N.factorization p := rfl
  have := Nat.factorization_prod_pow_eq_self (n := N) (by omega)
  rw [hdef, Nat.support_factorization] at this
  exact this

/-- Witness for C2 at the concrete input N = 12 (generator set [2, 3]). -/
theorem C2_m_primes_correct_witness :
    1 ≤ 12 ∧
    (List.Sorted (· < ·) (m_primes 12) ∧
     (m_primes 12).Nodup ∧
     (∀ r, r ∈ m_primes 12 ↔ (Nat.Prime r ∧ r ∣ 12)) ∧
     (m_primes 12).toFinset = Nat.primeFactors 12 ∧
     (∏ p ∈ (m_primes 12).toFinset, p ^ (Nat.factorization 12) p) = 12) :=
  ⟨by norm_num, C2_m_primes_correct 12 (by norm_num)⟩

/-! ## Vandermonde-style matrix (`04_renorm_matrix_demo.py`, lines 29-34)

Python source:
```
R = 1 + len(m_primes)
xs = [0.0] + [math.log(float(l)) for l in m_primes]  # arch at x=0
M = np.zeros((R,R))
for i,x in enumerate(xs):
    for k in range(R):
        M[i,k] = (x**k)
```
The float computation is modelled over the real numbers: evaluation
points are 0 followed by the natural logarithms of the generators, and
the double assignment loop fills entry (i, k) with the i-th evaluation
point raised to the k-th power (with the Python convention
`0.0 ** 0 == 1.0`, which matches `Monoid.npow` on `ℝ`). -/

noncomputable def x_values (gens : List Nat) : List ℝ :=
  0 :: gens.map (fun (l : Nat) => Real.log (l : ℝ))

theorem x_values_length (gens : List Nat) : (x_values gens).length = 1 + gens.length := by
  rw [x_values, List.length_cons, List.length_map]
  omega

def Rdim (gens : List Nat) : Nat := 1 + gens.length

noncomputable def M (gens : List Nat) :
    Matrix (Fin (1 + gens.length)) (Fin (1 + gens.length)) ℝ :=
  fun i k => (x_values gens).get ⟨i.1, by rw [x_values_length]; exact i.2⟩ ^ (k : ℕ)

/-- Modelled from the spec: `np.linalg.det` ("determinant via standard
LU-based determinant") is numpy library code, not part of this repository;
it is modelled by the mathematical determinant. -/
noncomputable def numpy_det {n : Nat} (A : Matrix (Fin n) (Fin n) ℝ) : ℝ := A.det

/-- Modelled from the spec: `np.linalg.eigvals` ("eigenvalues via standard
general (non-symmetric) eigenvalue decomposition") is numpy library code;
it is modelled as the multiset of complex roots of the characteristic
polynomial. -/
noncomputable def numpy_eigvals {n : Nat} (A : Matrix (Fin n) (Fin n) ℝ) : Multiset ℂ :=
  ((A.map (algebraMap ℝ ℂ)).charpoly).roots

/-- Modelled from the spec: singular values ("ratio of largest to smallest
singular value") are the square roots of the eigenvalues of `Aᵀ * A`. -/
noncomputable def singular_values {n : Nat} (A : Matrix (Fin n) (Fin n) ℝ) : Finset ℝ :=
  ((A.transpose * A).charpoly.roots.toFinset).image Real.sqrt

/-- Modelled from the spec: `np.linalg.cond` ("condition number as the
ratio of largest to smallest singular value (2-norm)") is numpy library
code; modelled as that ratio over `singular_values`. -/
noncomputable def numpy_cond {n : Nat} (A : Matrix (Fin n) (Fin n) ℝ) : ℝ :=
  sSup ((singular_values A : Set ℝ)) / sInf ((singular_values A : Set ℝ))

/-- C8: for every generator set, the constructed matrix has entries
`M[i][k] = (evaluation point i) ^ k` with the convention `0 ^ 0 = 1`, so
row 0 (whose evaluation point is the archimedean value 0) is the unit row
`[1, 0, ..., 0]`. -/
theorem C8_matrix_entries (gens : List Nat) (i k : Fin (1 + gens.length)) :
    M gens i k
      = (x_values gens).get ⟨i.1, by rw [x_values_length]; exact i.2⟩ ^ (k : ℕ) ∧
    ((i : ℕ) = 0 → M gens i k = if (k : ℕ) = 0 then 1 else 0) := by
  refine ⟨rfl, ?_⟩
  obtain ⟨iv, hilt⟩ := i
  intro hi
  have hiv : iv = 0 := hi
  subst hiv
  show (0 : ℝ) ^ (k : ℕ) = if (k : ℕ) = 0 then 1 else 0
  rcases Nat.eq_zero_or_pos (k : ℕ) with hk | hk
  · simp [hk]
  · rw [if_neg (by omega), zero_pow (by omega)]

/-- Witness for C8 at the concrete generator set [2]: entry (0, 1) of the
matrix is 0. -/
theorem C8_matrix_entries_witness :
    M [2] ⟨0, by decide⟩ ⟨1, by decide⟩ = 0 := by
  have h := (C8_matrix_entries [2] ⟨0, by decide⟩ ⟨1, by decide⟩).2 rfl
  norm_num at h
  exact h

theorem m_primes_one : m_primes 1 = [] := by
  have houter : outer_loop 2 1 [] = (1, []) := by
    rw [outer_loop]
    norm_num
  rw [m_primes]
  simp [houter]

theorem charpoly_one_fin_one (K : Type) [CommRing K] [Nontrivial K] :
    (1 : Matrix (Fin 1) (Fin 1) K).charpoly = Polynomial.X - 1 := by
  show (Matrix.charmatrix (1 : Matrix (Fin 1) (Fin 1) K)).det = Polynomial.X - 1
  rw [Matrix.det_fin_one, Matrix.charmatrix_apply_eq, Matrix.one_apply_eq, Polynomial.C_1]

theorem M_nil_eq_one : M [] = 1 := by
  funext i k
  obtain ⟨iv, hi⟩ := i
  obtain ⟨kv, hk⟩ := k
  have hiv : iv = 0 := by simpa using hi
  have hkv : kv = 0 := by simpa using hk
  subst hiv
  subst hkv
  show (0 : ℝ) ^ 0 = (1 : Matrix (Fin (1 + ([] : List Nat).length)) (Fin (1 + ([] : List Nat).length)) ℝ) ⟨0, _⟩ ⟨0, _⟩
  rw [pow_zero, Matrix.one_apply_eq]

theorem eigvals_one_fin_one : numpy_eigvals (1 : Matrix (Fin 1) (Fin 1) ℝ) = {1} := by
  rw [numpy_eigvals, Matrix.map_one _ (map_zero _) (map_one _), charpoly_one_fin_one,
    ← Polynomial.C_1, Polynomial.roots_X_sub_C]

theorem cond_one_fin_one : numpy_cond (1 : Matrix (Fin 1) (Fin 1) ℝ) = 1 := by
  have h1 : ((1 : Matrix (Fin 1) (Fin 1) ℝ).transpose * 1) = 1 := by
    rw [Matrix.transpose_one, one_mul]
  rw [numpy_cond, singular_values, h1, charpoly_one_fin_one,
    ← Polynomial.C_1, Polynomial.roots_X_sub_C, Multiset.toFinset_singleton,
    Finset.image_singleton, Real.sqrt_one, Finset.coe_singleton,
    csSup_singleton, csInf_singleton]
  norm_num

/-- C9: for input N = 1 the build-and-analyze routine produces an empty
generator set, dimension R = 1, the 1-by-1 identity matrix (i.e. the
matrix whose sole entry is 1), determinant 1, condition number 1 and the
single eigenvalue 1.  Determinant, condition number and eigenvalues are
the spec-modelled numpy operations. -/
theorem C9_N_one_edge_case :
    m_primes 1 = [] ∧
    Rdim (m_primes 1) = 1 ∧
    M (m_primes 1) = 1 ∧
    numpy_det (M (m_primes 1)) = 1 ∧
    numpy_cond (M (m_primes 1)) = 1 ∧
    numpy_eigvals (M (m_primes 1)) = {1} := by
  have h := m_primes_one
  refine ⟨h, ?_, ?_, ?_, ?_, ?_⟩
  · rw [h]
    rfl
  · rw [h]
    exact M_nil_eq_one
  · rw [h, M_nil_eq_one, numpy_det, Matrix.det_one]
  · rw [h, M_nil_eq_one]
    exact cond_one_fin_one
  · rw [h, M_nil_eq_one]
    exact eigvals_one_fin_one

/-! ## Value serializer (`save_utils.py`, lines 16-59)

Python values are modelled by the inductive `PyVal`.  Each constructor
corresponds to one of the runtime type classes that the dispatch ladder
of `serialize_value` distinguishes; the numeric payloads are exact
(`Int` for Python ints, `ℚ` for Python floats — every operation the
serializer performs on them, such as `float(x)` on a float or reading
the parts of a complex number, is exact on floats). -/

inductive PyKey where
  | strKey (s : String)
  | intKey (n : Int)
deriving DecidableEq

/-- Scalar cell of a numpy array: integer, floating or complex dtype. -/
inductive NDCell where
  | cInt (n : Int)
  | cFloat (x : ℚ)
  | cComplex (re im : ℚ)

/-- A numpy `ndarray`, described by its (possibly nested) extent: a 0-d
array holds one cell, an n-d array is a list of (n-1)-d arrays. -/
inductive NDArray where
  | leaf (c : NDCell)
  | node (xs : List NDArray)

inductive PyVal where
  | none
  | int (n : Int)
  | float (x : ℚ)
  | complex (re im : ℚ)
  | npComplex (re im : ℚ)
  | sageComplex (re im : ℚ)
  | sageNum (x : ℚ)
  | str (s : String)
  | list (xs : List PyVal)
  | tuple (xs : List PyVal)
  | dict (kvs : List (PyKey × PyVal))
  | ndarray (a : NDArray)
  | npInt (n : Int)
  | npFloat (x : ℚ)
  | floatable (x : ℚ)
  | intable (n : Int)
  | other (s : String)

/- Constructor glossary for `PyVal`: `none` is Python `None`; `int` /
`float` / `complex` / `str` are the native types; `npComplex`, `npInt`,
`npFloat` are numpy scalars (whose `real` / `imag` are plain attributes);
`sageComplex` is a foreign complex-like object whose `imag` is a callable
zero-argument accessor; `sageNum` is a foreign number exposing
`numerical_approx`; `ndarray` is a numpy array; `floatable` / `intable`
expose only a float / int conversion; `other` is any remaining object,
carrying its textual representation. -/

/-- Python scalar produced by `ndarray.tolist()` for one array cell. -/
def cell_tolist (c : NDCell) : PyVal :=
  match c with
  | .cInt n => .int n
  | .cFloat x => .float x
  | .cComplex re im => .complex re im

mutual

/-- The value of `v.tolist()` for a numpy array: nested plain lists whose
leaves are native Python scalars (ints, floats, or complex numbers). -/
def ndtolist (a : NDArray) : PyVal :=
  match a with
  | .leaf c => cell_tolist c
  | .node xs => .list (ndtolist_list xs)

def ndtolist_list (xs : List NDArray) : List PyVal :=
  match xs with
  | [] => []
  | x :: rest => ndtolist x :: ndtolist_list rest

end

/-- Embeds `complex_to_dict` (`save_utils.py`, lines 16-25).  Every call
site passes a value with both real and imaginary parts available, and the
attribute branch (numpy / native complex) and the callable branch (Sage
complex) both build the same record of the two float parts. -/
def complex_to_dict (re im : ℚ) : PyVal :=
  .dict [(.strKey "real", .float re), (.strKey "imag", .float im)]

mutual

/-- Embeds `serialize_value` (`save_utils.py`, lines 27-59), branch by
branch in source order.  The constructors of `PyVal` are disjoint, so the
first-match dispatch of the source is a plain match here; each branch is
annotated with the source test it corresponds to. -/
def serialize_value (v : PyVal) : PyVal :=
  match v with
  | .none => .none                               -- v is None
  | .npComplex re im => complex_to_dict re im    -- isinstance(v, (np.complex64, np.complex128))
  | .complex re im => complex_to_dict re im      -- isinstance(v, complex)
  | .sageComplex re im => complex_to_dict re im  -- has a callable imag accessor
  | .sageNum x => .float x                       -- has numerical_approx
  | .list xs => .list (serialize_list xs)        -- isinstance(v, (list, tuple))
  | .tuple xs => .list (serialize_list xs)
  | .dict kvs => .dict (serialize_pairs kvs)     -- isinstance(v, dict); keys are kept as they are
  | .ndarray a => ndtolist a                     -- isinstance(v, np.ndarray): v.tolist(), not re-serialized
  | .int n => .int n                             -- isinstance(v, (int, np.integer))
  | .npInt n => .int n
  | .float x => .float x                         -- isinstance(v, (float, np.floating))
  | .npFloat x => .float x
  | .floatable x => .float x                     -- float conversion capability
  | .intable n => .int n                         -- int conversion capability
  | .str s => .str s                             -- final fallback str(v); str of a string is itself
  | .other s => .str s                           -- final fallback str(v)

def serialize_list (xs : List PyVal) : List PyVal :=
  match xs with
  | [] => []
  | x :: rest => serialize_value x :: serialize_list rest

def serialize_pairs (kvs : List (PyKey × PyVal)) : List (PyKey × PyVal) :=
  match kvs with
  | [] => []
  | (k, v) :: rest => (k, serialize_value v) :: serialize_pairs rest

end

/-! ## Auxiliary functions on the Python value model -/

/-- Modelled from the spec: `json.dump` (Python standard library, outside
this repository) coerces int dict keys to their decimal string form and
keeps string keys unchanged. -/
def jsonKey (k : PyKey) : PyKey :=
  match k with
  | .strKey s => .strKey s
  | .intKey n => .strKey (toString n)

mutual

/-- Modelled from the spec: the Python `json` module (outside this
repository) — `json.dump` followed by `json.load`.  JSON-encodable values
(None, int, float, str, list, tuple, dict) round-trip unchanged, except
that tuples come back as lists and int dict keys come back as decimal
strings; any other value (complex, numpy scalar or array, foreign
numeric object) makes `json.dump` raise TypeError, modelled as
`Option.none`. -/
def jsonReload (v : PyVal) : Option PyVal :=
  match v with
  | .none => some .none
  | .int n => some (.int n)
  | .float x => some (.float x)
  | .str s => some (.str s)
  | .list xs => (jsonReloadList xs).map PyVal.list
  | .tuple xs => (jsonReloadList xs).map PyVal.list
  | .dict kvs => (jsonReloadPairs kvs).map PyVal.dict
  | _ => Option.none

def jsonReloadList (xs : List PyVal) : Option (List PyVal) :=
  match xs with
  | [] => some []
  | x :: rest =>
    match jsonReload x, jsonReloadList rest with
    | some x', some rest' => some (x' :: rest')
    | _, _ => Option.none

def jsonReloadPairs (kvs : List (PyKey × PyVal)) : Option (List (PyKey × PyVal)) :=
  match kvs with
  | [] => some []
  | (k, v) :: rest =>
    match jsonReload v, jsonReloadPairs rest with
    | some v', some rest' => some ((jsonKey k, v') :: rest')
    | _, _ => Option.none

end

mutual

/-- Decides the canonical-serialized-form universe of claim C6: null,
plain int/float, string, and nested lists and string-keyed mappings of
such (a record with fields `real` and `imag` is such a mapping whose two
values are floats). -/
def isCanonical (v : PyVal) : Bool :=
  match v with
  | .none => true
  | .int _ => true
  | .float _ => true
  | .str _ => true
  | .list xs => isCanonicalList xs
  | .dict kvs => isCanonicalPairs kvs
  | _ => false

def isCanonicalList (xs : List PyVal) : Bool :=
  match xs with
  | [] => true
  | x :: rest => isCanonical x && isCanonicalList rest

def isCanonicalPairs (kvs : List (PyKey × PyVal)) : Bool :=
  match kvs with
  | [] => true
  | (k, v) :: rest =>
    (match k with | .strKey _ => true | .intKey _ => false)
      && isCanonical v && isCanonicalPairs rest

end

mutual

/-- Decides the input universe of claim C3: values composed of plain
ints/floats, native complex numbers, nested lists/tuples, and
string-keyed mappings. -/
def isPlain (v : PyVal) : Bool :=
  match v with
  | .int _ => true
  | .float _ => true
  | .complex _ _ => true
  | .list xs => isPlainList xs
  | .tuple xs => isPlainList xs
  | .dict kvs => isPlainPairs kvs
  | _ => false

def isPlainList (xs : List PyVal) : Bool :=
  match xs with
  | [] => true
  | x :: rest => isPlain x && isPlainList rest

def isPlainPairs (kvs : List (PyKey × PyVal)) : Bool :=
  match kvs with
  | [] => true
  | (k, v) :: rest =>
    (match k with | .strKey _ => true | .intKey _ => false)
      && isPlain v && isPlainPairs rest

end

mutual

/-- Follows the words of claim C3, not the source: the structure the
claim predicts after serialize + JSON encode/decode — every former
complex number appears as a record with fields `real` and `imag` holding
its two parts, lists and tuples become lists, mappings keep their string
keys with recursively transformed values, and plain numbers are
preserved exactly. -/
def specCanon (v : PyVal) : PyVal :=
  match v with
  | .int n => .int n
  | .float x => .float x
  | .complex re im => .dict [(.strKey "real", .float re), (.strKey "imag", .float im)]
  | .list xs => .list (specCanonList xs)
  | .tuple xs => .list (specCanonList xs)
  | .dict kvs => .dict (specCanonPairs kvs)
  | w => w

def specCanonList (xs : List PyVal) : List PyVal :=
  match xs with
  | [] => []
  | x :: rest => specCanon x :: specCanonList rest

def specCanonPairs (kvs : List (PyKey × PyVal)) : List (PyKey × PyVal) :=
  match kvs with
  | [] => []
  | (k, v) :: rest => (k, specCanon v) :: specCanonPairs rest

end

/-- Index (in source order) of the first dispatch rule of
`serialize_value` that matches the given value: 1 = None, 2 = numpy
complex, 3 = native complex, 4 = callable imag, 5 = numerical approx,
6 = list/tuple, 7 = dict, 8 = ndarray, 9 = int-classified scalar,
10 = float-classified scalar, 11 = float-convertible,
12 = int-convertible; `Option.none` when only the final `str(v)`
fallback applies. -/
def firstMatchedRule (v : PyVal) : Option Nat :=
  match v with
  | .none => some 1
  | .npComplex _ _ => some 2
  | .complex _ _ => some 3
  | .sageComplex _ _ => some 4
  | .sageNum _ => some 5
  | .list _ => some 6
  | .tuple _ => some 6
  | .dict _ => some 7
  | .ndarray _ => some 8
  | .int _ => some 9
  | .npInt _ => some 9
  | .float _ => some 10
  | .npFloat _ => some 10
  | .floatable _ => some 11
  | .intable _ => some 12
  | .str _ => Option.none
  | .other _ => Option.none

/-- Python `str(v)` for the values that reach the final serializer
fallback: a string is its own textual representation, and `other`
carries the textual representation of the foreign object it stands for.
(Only meaningful — and only used — on those two constructors.) -/
def pyStr (v : PyVal) : String :=
  match v with
  | .str s => s
  | .other s => s
  | _ => ""

mutual

/-- Checks that a numpy array has no complex cells (integer or floating
dtype only). -/
def ndAllReal (a : NDArray) : Bool :=
  match a with
  | .leaf (.cInt _) => true
  | .leaf (.cFloat _) => true
  | .leaf (.cComplex _ _) => false
  | .node xs => ndAllRealList xs

def ndAllRealList (xs : List NDArray) : Bool :=
  match xs with
  | [] => true
  | x :: rest => ndAllReal x && ndAllRealList rest

end

/-- Checks that every key of a mapping value is a string (true on
non-mapping values). -/
def keysAllStrings (v : PyVal) : Bool :=
  match v with
  | .dict kvs => kvs.all (fun kv => match kv.1 with | .strKey _ => true | .intKey _ => false)
  | _ => true

/-! ## Induction principles and list bridging lemmas -/

/-- Structural induction principle for `PyVal` with membership-based
hypotheses for the values nested in lists, tuples and mappings. -/
def pyval_ind (P : PyVal → Prop)
    (hnone : P .none)
    (hint : ∀ n, P (.int n))
    (hfloat : ∀ x, P (.float x))
    (hcomplex : ∀ re im, P (.complex re im))
    (hnpc : ∀ re im, P (.npComplex re im))
    (hsagec : ∀ re im, P (.sageComplex re im))
    (hsagen : ∀ x, P (.sageNum x))
    (hstr : ∀ s, P (.str s))
    (hlist : ∀ xs, (∀ x ∈ xs, P x) → P (.list xs))
    (htuple : ∀ xs, (∀ x ∈ xs, P x) → P (.tuple xs))
    (hdict : ∀ kvs, (∀ kv ∈ kvs, P (Prod.snd kv)) → P (.dict kvs))
    (hnd : ∀ a, P (.ndarray a))
    (hnpi : ∀ n, P (.npInt n))
    (hnpf : ∀ x, P (.npFloat x))
    (hfc : ∀ x, P (.floatable x))
    (hic : ∀ n, P (.intable n))
    (hother : ∀ s, P (.other s)) :
    ∀ v, P v
  | .none => hnone
  | .int n => hint n
  | .float x => hfloat x
  | .complex re im => hcomplex re im
  | .npComplex re im => hnpc re im
  | .sageComplex re im => hsagec re im
  | .sageNum x => hsagen x
  | .str s => hstr s
  | .list xs => hlist xs (fun x hx =>
      pyval_ind P hnone hint hfloat hcomplex hnpc hsagec hsagen hstr hlist htuple
        hdict hnd hnpi hnpf hfc hic hother x)
  | .tuple xs => htuple xs (fun x hx =>
      pyval_ind P hnone hint hfloat hcomplex hnpc hsagec hsagen hstr hlist htuple
        hdict hnd hnpi hnpf hfc hic hother x)
  | .dict kvs => hdict kvs (fun kv hkv =>
      pyval_ind P hnone hint hfloat hcomplex hnpc hsagec hsagen hstr hlist htuple
        hdict hnd hnpi hnpf hfc hic hother kv.2)
  | .ndarray a => hnd a
  | .npInt n => hnpi n
  | .npFloat x => hnpf x
  | .floatable x => hfc x
  | .intable n => hic n
  | .other s => hother s
termination_by v => sizeOf v
decreasing_by
  · have := List.sizeOf_lt_of_mem hx
    simp only [PyVal.list.sizeOf_spec]
    omega
  · have := List.sizeOf_lt_of_mem hx
    simp only [PyVal.tuple.sizeOf_spec]
    omega
  · have h1 := List.sizeOf_lt_of_mem hkv
    rcases kv with ⟨a, b⟩
    simp only [PyVal.dict.sizeOf_spec, Prod.mk.sizeOf_spec] at h1 ⊢
    omega

/-- Structural induction principle for `NDArray` with membership-based
hypotheses for nested sub-arrays. -/
def ndarray_ind (P : NDArray → Prop)
    (hleaf : ∀ c, P (.leaf c))
    (hnode : ∀ xs, (∀ x ∈ xs, P x) → P (.node xs)) :
    ∀ a, P a
  | .leaf c => hleaf c
  | .node xs => hnode xs (fun x hx => ndarray_ind P hleaf hnode x)
termination_by a => sizeOf a
decreasing_by
  have := List.sizeOf_lt_of_mem hx
  simp only [NDArray.node.sizeOf_spec]
  omega

theorem serialize_list_eq_map (xs : List PyVal) :
    serialize_list xs = xs.map serialize_value := by
  induction xs with
  | nil => rw [serialize_list]; rfl
  | cons x rest ih => rw [serialize_list, ih]; rfl

theorem serialize_pairs_eq_map (kvs : List (PyKey × PyVal)) :
    serialize_pairs kvs = kvs.map (fun kv => (kv.1, serialize_value kv.2)) := by
  induction kvs with
  | nil => rw [serialize_pairs]; rfl
  | cons kv rest ih =>
    rcases kv with ⟨k, v⟩
    rw [serialize_pairs, ih]
    rfl

theorem ndtolist_list_eq_map (xs : List NDArray) :
    ndtolist_list xs = xs.map ndtolist := by
  induction xs with
  | nil => rw [ndtolist_list]; rfl
  | cons x rest ih => rw [ndtolist_list, ih]; rfl

theorem isCanonicalList_mem {xs : List PyVal} (h : isCanonicalList xs = true) :
    ∀ x ∈ xs, isCanonical x = true := by
  induction xs with
  | nil => intro x hx; cases hx
  | cons a rest ih =>
    rw [isCanonicalList, Bool.and_eq_true] at h
    intro x hx
    rcases List.mem_cons.mp hx with rfl | hx'
    · exact h.1
    · exact ih h.2 x hx'

theorem isCanonicalPairs_mem {kvs : List (PyKey × PyVal)} (h : isCanonicalPairs kvs = true) :
    ∀ kv ∈ kvs, isCanonical (Prod.snd kv) = true := by
  induction kvs with
  | nil => intro kv hkv; cases hkv
  | cons a rest ih =>
    rcases a with ⟨k, v⟩
    rcases k with s | n
    · simp only [isCanonicalPairs, Bool.true_and, Bool.and_eq_true] at h
      intro kv hkv
      rcases List.mem_cons.mp hkv with rfl | hkv'
      · exact h.1
      · exact ih h.2 kv hkv'
    · simp only [isCanonicalPairs, Bool.false_and] at h
      cases h

theorem isPlainList_mem {xs : List PyVal} (h : isPlainList xs = true) :
    ∀ x ∈ xs, isPlain x = true := by
  induction xs with
  | nil => intro x hx; cases hx
  | cons a rest ih =>
    rw [isPlainList, Bool.and_eq_true] at h
    intro x hx
    rcases List.mem_cons.mp hx with rfl | hx'
    · exact h.1
    · exact ih h.2 x hx'

theorem isPlainPairs_mem {kvs : List (PyKey × PyVal)} (h : isPlainPairs kvs = true) :
    ∀ kv ∈ kvs, isPlain (Prod.snd kv) = true := by
  induction kvs with
  | nil => intro kv hkv; cases hkv
  | cons a rest ih =>
    rcases a with ⟨k, v⟩
    rcases k with s | n
    · simp only [isPlainPairs, Bool.true_and, Bool.and_eq_true] at h
      intro kv hkv
      rcases List.mem_cons.mp hkv with rfl | hkv'
      · exact h.1
      · exact ih h.2 kv hkv'
    · simp only [isPlainPairs, Bool.false_and] at h
      cases h

theorem map_fixed {α : Type} (f : α → α) :
    ∀ (xs : List α), (∀ x ∈ xs, f x = x) → xs.map f = xs := by
  intro xs h
  induction xs with
  | nil => rfl
  | cons a rest ih =>
    rw [List.map_cons, h a (List.mem_cons_self a rest), ih (fun x hx => h x (List.mem_cons_of_mem a hx))]

/-! ## Serializer theorems -/

/-- Values already in canonical serialized form are fixed points of the
serializer. -/
theorem serialize_canonical_fixed : ∀ v, isCanonical v = true → serialize_value v = v := by
  intro v
  induction v using pyval_ind with
  | hnone => intro _; rw [serialize_value]
  | hint n => intro _; rw [serialize_value]
  | hfloat x => intro _; rw [serialize_value]
  | hstr s => intro _; rw [serialize_value]
  | hcomplex re im => intro h; simp [isCanonical] at h
  | hnpc re im => intro h; simp [isCanonical] at h
  | hsagec re im => intro h; simp [isCanonical] at h
  | hsagen x => intro h; simp [isCanonical] at h
  | htuple xs ih => intro h; simp [isCanonical] at h
  | hnd a => intro h; simp [isCanonical] at h
  | hnpi n => intro h; simp [isCanonical] at h
  | hnpf x => intro h; simp [isCanonical] at h
  | hfc x => intro h; simp [isCanonical] at h
  | hic n => intro h; simp [isCanonical] at h
  | hother s => intro h; simp [isCanonical] at h
  | hlist xs ih =>
    intro h
    rw [isCanonical] at h
    rw [serialize_value, serialize_list_eq_map,
      map_fixed _ xs (fun x hx => ih x hx (isCanonicalList_mem h x hx))]
  | hdict kvs ih =>
    intro h
    rw [isCanonical] at h
    rw [serialize_value, serialize_pairs_eq_map,
      map_fixed _ kvs (fun kv hkv => by
        rw [ih kv hkv (isCanonicalPairs_mem h kv hkv)])]

/-- C6: for every value already in canonical serialized form,
serializing twice gives the same result as serializing once. -/
theorem C6_serialize_idempotent (v : PyVal) (h : isCanonical v = true) :
    serialize_value (serialize_value v) = serialize_value v :=
  congrArg serialize_value (serialize_canonical_fixed v h)

/-- Witness for C6 at a concrete canonical value (a record with fields
real and imag inside a list). -/
theorem C6_serialize_idempotent_witness :
    isCanonical (.list [.dict [(.strKey "real", .float (3/2)), (.strKey "imag", .float 0)],
      .int 7, .str "ok", .none]) = true ∧
    serialize_value (serialize_value (.list [.dict [(.strKey "real", .float (3/2)),
      (.strKey "imag", .float 0)], .int 7, .str "ok", .none]))
      = serialize_value (.list [.dict [(.strKey "real", .float (3/2)),
        (.strKey "imag", .float 0)], .int 7, .str "ok", .none]) :=
  ⟨by simp [isCanonical, isCanonicalList, isCanonicalPairs],
   C6_serialize_idempotent _ (by simp [isCanonical, isCanonicalList, isCanonicalPairs])⟩

theorem specCanonList_eq_map (xs : List PyVal) :
    specCanonList xs = xs.map specCanon := by
  induction xs with
  | nil => rw [specCanonList]; rfl
  | cons x rest ih => rw [specCanonList, ih]; rfl

theorem specCanonPairs_eq_map (kvs : List (PyKey × PyVal)) :
    specCanonPairs kvs = kvs.map (fun kv => (kv.1, specCanon kv.2)) := by
  induction kvs with
  | nil => rw [specCanonPairs]; rfl
  | cons kv rest ih =>
    rcases kv with ⟨k, v⟩
    rw [specCanonPairs, ih]
    rfl

/-- On the claim C3 input universe the serializer computes exactly the
transformation that the claim describes. -/
theorem serialize_plain_eq_specCanon : ∀ v, isPlain v = true → serialize_value v = specCanon v := by
  intro v
  induction v using pyval_ind with
  | hnone => intro h; simp [isPlain] at h
  | hint n => intro _; rw [serialize_value, specCanon]
  | hfloat x => intro _; rw [serialize_value, specCanon]
  | hstr s => intro h; simp [isPlain] at h
  | hcomplex re im => intro _; rw [serialize_value, specCanon, complex_to_dict]
  | hnpc re im => intro h; simp [isPlain] at h
  | hsagec re im => intro h; simp [isPlain] at h
  | hsagen x => intro h; simp [isPlain] at h
  | hnd a => intro h; simp [isPlain] at h
  | hnpi n => intro h; simp [isPlain] at h
  | hnpf x => intro h; simp [isPlain] at h
  | hfc x => intro h; simp [isPlain] at h
  | hic n => intro h; simp [isPlain] at h
  | hother s => intro h; simp [isPlain] at h
  | hlist xs ih =>
    intro h
    rw [isPlain] at h
    rw [serialize_value, serialize_list_eq_map, specCanon, specCanonList_eq_map,
      List.map_congr_left (fun x hx => ih x hx (isPlainList_mem h x hx))]
  | htuple xs ih =>
    intro h
    rw [isPlain] at h
    rw [serialize_value, serialize_list_eq_map, specCanon, specCanonList_eq_map,
      List.map_congr_left (fun x hx => ih x hx (isPlainList_mem h x hx))]
  | hdict kvs ih =>
    intro h
    rw [isPlain] at h
    rw [serialize_value, serialize_pairs_eq_map, specCanon, specCanonPairs_eq_map,
      List.map_congr_left (fun kv hkv => by
        rw [ih kv hkv (isPlainPairs_mem h kv hkv)])]

theorem jsonReloadList_all (xs : List PyVal) (h : ∀ x ∈ xs, jsonReload x = some x) :
    jsonReloadList xs = some xs := by
  induction xs with
  | nil => rw [jsonReloadList]
  | cons x rest ih =>
    rw [jsonReloadList, h x (List.mem_cons_self x rest),
      ih (fun y hy => h y (List.mem_cons_of_mem x hy))]

theorem jsonReloadPairs_all (kvs : List (PyKey × PyVal))
    (hv : ∀ kv ∈ kvs, jsonReload (Prod.snd kv) = some (Prod.snd kv))
    (hk : ∀ kv ∈ kvs, jsonKey (Prod.fst kv) = Prod.fst kv) :
    jsonReloadPairs kvs = some kvs := by
  induction kvs with
  | nil => rw [jsonReloadPairs]
  | cons kv rest ih =>
    rcases kv with ⟨k, v⟩
    rw [jsonReloadPairs, hv (k, v) (List.mem_cons_self _ rest),
      ih (fun y hy => hv y (List.mem_cons_of_mem _ hy))
         (fun y hy => hk y (List.mem_cons_of_mem _ hy)),
      hk (k, v) (List.mem_cons_self _ rest)]

/-- Every key of an isPlain mapping is a string, so json key coercion
leaves it unchanged. -/
theorem isPlainPairs_keys {kvs : List (PyKey × PyVal)} (h : isPlainPairs kvs = true) :
    ∀ kv ∈ kvs, jsonKey (Prod.fst kv) = Prod.fst kv := by
  induction kvs with
  | nil => intro kv hkv; cases hkv
  | cons a rest ih =>
    rcases a with ⟨k, v⟩
    rcases k with s | n
    · simp only [isPlainPairs, Bool.true_and, Bool.and_eq_true] at h
      intro kv hkv
      rcases List.mem_cons.mp hkv with rfl | hkv'
      · rw [jsonKey]
      · exact ih h.2 kv hkv'
    · simp only [isPlainPairs, Bool.false_and] at h
      cases h

/-- The serializer output of a claim C3 input is stable under a JSON
round trip. -/
theorem jsonReload_serialize_plain :
    ∀ v, isPlain v = true → jsonReload (serialize_value v) = some (serialize_value v) := by
  intro v
  induction v using pyval_ind with
  | hnone => intro h; simp [isPlain] at h
  | hint n => intro _; rw [serialize_value, jsonReload]
  | hfloat x => intro _; rw [serialize_value, jsonReload]
  | hstr s => intro h; simp [isPlain] at h
  | hcomplex re im =>
    intro _
    rw [serialize_value, complex_to_dict, jsonReload, jsonReloadPairs, jsonReload,
      jsonReloadPairs, jsonReload, jsonReloadPairs, jsonKey, jsonKey]
    rfl
  | hnpc re im => intro h; simp [isPlain] at h
  | hsagec re im => intro h; simp [isPlain] at h
  | hsagen x => intro h; simp [isPlain] at h
  | hnd a => intro h; simp [isPlain] at h
  | hnpi n => intro h; simp [isPlain] at h
  | hnpf x => intro h; simp [isPlain] at h
  | hfc x => intro h; simp [isPlain] at h
  | hic n => intro h; simp [isPlain] at h
  | hother s => intro h; simp [isPlain] at h
  | hlist xs ih =>
    intro h
    rw [isPlain] at h
    rw [serialize_value, jsonReload, serialize_list_eq_map,
      jsonReloadList_all _ (fun y hy => by
        obtain ⟨x, hx, rfl⟩ := List.mem_map.mp hy
        exact ih x hx (isPlainList_mem h x hx))]
    rfl
  | htuple xs ih =>
    intro h
    rw [isPlain] at h
    rw [serialize_value, jsonReload, serialize_list_eq_map,
      jsonReloadList_all _ (fun y hy => by
        obtain ⟨x, hx, rfl⟩ := List.mem_map.mp hy
        exact ih x hx (isPlainList_mem h x hx))]
    rfl
  | hdict kvs ih =>
    intro h
    rw [isPlain] at h
    rw [serialize_value, jsonReload, serialize_pairs_eq_map,
      jsonReloadPairs_all _
        (fun y hy => by
          obtain ⟨kv, hkv, rfl⟩ := List.mem_map.mp hy
          exact ih kv hkv (isPlainPairs_mem h kv hkv))
        (fun y hy => by
          obtain ⟨kv, hkv, rfl⟩ := List.mem_map.mp hy
          exact isPlainPairs_keys h kv hkv)]
    rfl

/-- C3: for every value composed of plain ints/floats, nested
lists/tuples, nested string-keyed mappings, and native complex numbers,
serialize_value followed by JSON encode and decode succeeds and yields
exactly the structure described by the claim (specCanon): every former
complex number appears as a record with fields real and imag matching
the original parts, and every plain number is preserved exactly. -/
theorem C3_serialize_json_roundtrip (v : PyVal) (h : isPlain v = true) :
    jsonReload (serialize_value v) = some (specCanon v) := by
  rw [jsonReload_serialize_plain v h, serialize_plain_eq_specCanon v h]

/-- Witness for C3 at a concrete nested input holding a complex number,
an int, a tuple with a float, and a string-keyed mapping. -/
theorem C3_serialize_json_roundtrip_witness :
    isPlain (.list [.complex 3 4, .int 5, .tuple [.float (1/2)],
      .dict [(.strKey "a", .int 1)]]) = true ∧
    jsonReload (serialize_value (.list [.complex 3 4, .int 5, .tuple [.float (1/2)],
      .dict [(.strKey "a", .int 1)]]))
      = some (specCanon (.list [.complex 3 4, .int 5, .tuple [.float (1/2)],
        .dict [(.strKey "a", .int 1)]])) :=
  ⟨by simp [isPlain, isPlainList, isPlainPairs],
   C3_serialize_json_roundtrip _ (by simp [isPlain, isPlainList, isPlainPairs])⟩

/-- C7: serialize_value is total on the modelled well-formed inputs by
construction (it is a Lean function on all of PyVal, with no failing
operation in any branch), and every input matched by none of the twelve
dispatch rules degrades to its textual representation via the final
fallback rule. -/
theorem C7_total_with_fallback (v : PyVal) (h : firstMatchedRule v = Option.none) :
    serialize_value v = .str (pyStr v) := by
  cases v <;> simp [firstMatchedRule] at h <;> rw [serialize_value, pyStr]

/-- Witness for C7 at a concrete foreign object that no dispatch rule
matches. -/
theorem C7_total_with_fallback_witness :
    firstMatchedRule (.other "PariGroup()") = Option.none ∧
    serialize_value (.other "PariGroup()") = .str (pyStr (.other "PariGroup()")) :=
  ⟨by simp [firstMatchedRule],
   C7_total_with_fallback _ (by simp [firstMatchedRule])⟩

/-! ## Claims C4 and C5: what the serializer actually does with arrays
and mapping keys -/

theorem ndAllRealList_mem {xs : List NDArray} (h : ndAllRealList xs = true) :
    ∀ x ∈ xs, ndAllReal x = true := by
  induction xs with
  | nil => intro x hx; cases hx
  | cons a rest ih =>
    rw [ndAllRealList, Bool.and_eq_true] at h
    intro x hx
    rcases List.mem_cons.mp hx with rfl | hx'
    · exact h.1
    · exact ih h.2 x hx'

theorem isCanonicalList_of_mem {xs : List PyVal} (h : ∀ x ∈ xs, isCanonical x = true) :
    isCanonicalList xs = true := by
  induction xs with
  | nil => rw [isCanonicalList]
  | cons a rest ih =>
    rw [isCanonicalList, Bool.and_eq_true]
    exact ⟨h a (List.mem_cons_self a rest), ih (fun x hx => h x (List.mem_cons_of_mem a hx))⟩

/-- The tolist image of an array without complex cells is canonical. -/
theorem ndtolist_canonical : ∀ a, ndAllReal a = true → isCanonical (ndtolist a) = true := by
  intro a
  induction a using ndarray_ind with
  | hleaf c =>
    intro h
    rcases c with n | x | ⟨re, im⟩
    · rw [ndtolist, cell_tolist, isCanonical]
    · rw [ndtolist, cell_tolist, isCanonical]
    · rw [ndAllReal] at h; cases h
  | hnode xs ih =>
    intro h
    rw [ndAllReal] at h
    rw [ndtolist, isCanonical, ndtolist_list_eq_map]
    exact isCanonicalList_of_mem (fun y hy => by
      obtain ⟨x, hx, rfl⟩ := List.mem_map.mp hy
      exact ih x hx (ndAllRealList_mem h x hx))

/-- C4 counterexample: serializing a complex-dtype numpy array yields the
raw tolist value — a list holding a raw native complex scalar, which is
not in canonical serialized form (in particular not a record with fields
real and imag). -/
theorem C4_counterexample :
    serialize_value (.ndarray (.node [.leaf (.cComplex 1 2)])) = .list [.complex 1 2] ∧
    isCanonical (serialize_value (.ndarray (.node [.leaf (.cComplex 1 2)]))) = false := by
  constructor
  · rw [serialize_value, ndtolist, ndtolist_list, ndtolist, ndtolist_list, cell_tolist]
  · rw [serialize_value, ndtolist, ndtolist_list, ndtolist, ndtolist_list, cell_tolist]
    simp [isCanonical, isCanonicalList]

/-- C4 amended: for every numpy array input, serialize_value returns
exactly the value of tolist() — nested plain lists of raw Python scalars,
not re-serialized — and when the array has no complex cells (integer or
real dtype) that result is in canonical serialized form; complex cells
surface as raw complex scalars. -/
theorem C4_ndarray_tolist (a : NDArray) :
    serialize_value (.ndarray a) = ndtolist a ∧
    (ndAllReal a = true → isCanonical (ndtolist a) = true) := by
  constructor
  · rw [serialize_value]
  · exact ndtolist_canonical a

/-- Witness for C4 (amended) at a concrete integer 1-d array. -/
theorem C4_ndarray_tolist_witness :
    serialize_value (.ndarray (.node [.leaf (.cInt 3), .leaf (.cFloat (1/2))]))
      = ndtolist (.node [.leaf (.cInt 3), .leaf (.cFloat (1/2))]) ∧
    ndAllReal (.node [.leaf (.cInt 3), .leaf (.cFloat (1/2))]) = true ∧
    isCanonical (ndtolist (.node [.leaf (.cInt 3), .leaf (.cFloat (1/2))])) = true :=
  ⟨(C4_ndarray_tolist _).1,
   by simp [ndAllReal, ndAllRealList],
   (C4_ndarray_tolist _).2 (by simp [ndAllReal, ndAllRealList])⟩

/-- C5 counterexample: a mapping with the integer key 1 keeps that
integer key after serialization — serialize_value does not convert
non-string keys to strings. -/
theorem C5_counterexample :
    serialize_value (.dict [(.intKey 1, .int 2)]) = .dict [(.intKey 1, .int 2)] ∧
    keysAllStrings (serialize_value (.dict [(.intKey 1, .int 2)])) = false := by
  constructor
  · rw [serialize_value, serialize_pairs, serialize_pairs, serialize_value]
  · rw [serialize_value, serialize_pairs, serialize_pairs, serialize_value]
    rfl

/-- C5 amended: for every mapping input, serialize_value returns a
mapping with each value recursively serialized and each key preserved
unchanged — string keys stay strings, but non-string keys are NOT
converted to strings by serialize_value (that conversion only happens
later, inside json.dump); the key set and order are preserved. -/
theorem C5_dict_keys_preserved (kvs : List (PyKey × PyVal)) :
    serialize_value (.dict kvs)
      = .dict (kvs.map (fun kv => (kv.1, serialize_value kv.2))) := by
  rw [serialize_value, serialize_pairs_eq_map]

/-! ## Result writer (`save_utils.py`, lines 61-95)

`save_json_results` is modelled as a pure function: the two
`datetime.now()` readings enter as parameters (`now_iso` for the
metadata record, `now_stamp` for the filename), the in-place mutation of
the dict of the caller becomes the first component of the result, and the
file write is outside the model — the value passed to `json.dump` and
the returned filename are the other two components. -/

/-- Python truthiness of the optional `curve_label` argument: `None` and
the empty string are falsy. -/
def truthy (s : Option String) : Bool :=
  match s with
  | Option.none => false
  | some c => if c = "" then false else true

/-- Python dict assignment `d[k] = v`: replaces the value at an existing
key (keeping its position), otherwise appends the new binding at the end
(insertion order). -/
def dictSet (kvs : List (PyKey × PyVal)) (k : PyKey) (v : PyVal) : List (PyKey × PyVal) :=
  if kvs.any (fun kv => kv.1 = k) then
    kvs.map (fun kv => if kv.1 = k then (k, v) else kv)
  else
    kvs ++ [(k, v)]

/-- Python dict lookup `d.get(k)`. -/
def dictGet (kvs : List (PyKey × PyVal)) (k : PyKey) : Option PyVal :=
  (kvs.find? (fun kv => kv.1 = k)).map (fun kv => kv.2)

/-- The metadata record with the timestamp and curve fields that
`save_json_results` installs (lines 76-79). -/
def metaRecord (now_iso : String) (curve_label : Option String) : PyVal :=
  .dict [(.strKey "timestamp", .str now_iso),
    (.strKey "curve", .str (if truthy curve_label then curve_label.getD "unknown" else "unknown"))]

/-- Embeds `save_json_results` (`save_utils.py`, lines 61-95): installs
the metadata record into the dict of the caller (an in-place assignment),
serializes the whole dict, and builds the timestamped filename with the
optional curve label. -/
def save_json_results (now_iso now_stamp : String) (filename_base : String)
    (data_dict : List (PyKey × PyVal)) (curve_label : Option String) :
    List (PyKey × PyVal) × PyVal × String :=
  let d := dictSet data_dict (.strKey "metadata") (metaRecord now_iso curve_label)
  let serialized := serialize_value (.dict d)
  let filename :=
    if truthy curve_label then
      "data/" ++ filename_base ++ "_" ++ curve_label.getD "" ++ "_" ++ now_stamp ++ ".json"
    else
      "data/" ++ filename_base ++ "_" ++ now_stamp ++ ".json"
  (d, serialized, filename)

theorem find_map_self (k : PyKey) (v : PyVal) :
    ∀ kvs : List (PyKey × PyVal), kvs.any (fun kv => kv.1 = k) = true →
      List.find? (fun kv => kv.1 = k) (kvs.map (fun kv => if kv.1 = k then (k, v) else kv))
        = some (k, v) := by
  intro kvs
  induction kvs with
  | nil => intro h; simp at h
  | cons kv rest ih =>
    rcases kv with ⟨a, b⟩
    intro h
    by_cases ha : a = k
    · subst ha
      simp [List.find?]
    · simp only [List.any_cons] at h
      simp only [ha, decide_False, Bool.false_or] at h
      simp only [List.map_cons, List.find?, ha, decide_False, ite_false]
      exact ih h

theorem find_append_self (k : PyKey) (v : PyVal) :
    ∀ kvs : List (PyKey × PyVal), kvs.any (fun kv => kv.1 = k) = false →
      List.find? (fun kv => kv.1 = k) (kvs ++ [(k, v)]) = some (k, v) := by
  intro kvs
  induction kvs with
  | nil => intro _; simp [List.find?]
  | cons kv rest ih =>
    rcases kv with ⟨a, b⟩
    intro h
    simp only [List.any_cons, Bool.or_eq_false_iff] at h
    have ha : decide (a = k) = false := h.1
    simp only [List.cons_append, List.find?, ha]
    exact ih h.2

theorem dictGet_dictSet_same (k : PyKey) (v : PyVal) (kvs : List (PyKey × PyVal)) :
    dictGet (dictSet kvs k v) k = some v := by
  rw [dictSet]
  by_cases hany : kvs.any (fun kv => kv.1 = k)
  · rw [if_pos hany, dictGet, find_map_self k v kvs hany]
    rfl
  · rw [if_neg hany, dictGet, find_append_self k v kvs (Bool.eq_false_iff.mpr hany)]
    rfl

theorem find_map_replace (k k' : PyKey) (v : PyVal) (h : k' ≠ k) :
    ∀ kvs : List (PyKey × PyVal),
      List.find? (fun kv => kv.1 = k') (kvs.map (fun kv => if kv.1 = k then (k, v) else kv))
        = List.find? (fun kv => kv.1 = k') kvs := by
  intro kvs
  induction kvs with
  | nil => rfl
  | cons kv rest ih =>
    rcases kv with ⟨a, b⟩
    by_cases ha : a = k
    · subst ha
      have h1 : decide (a = k') = false := by
        simp only [decide_eq_false_iff_not]
        exact fun hc => h (hc ▸ rfl)
      simp only [List.map_cons, eq_self_iff_true, ite_true, List.find?, h1]
      exact ih
    · simp only [List.map_cons, if_neg ha, List.find?]
      by_cases ha' : a = k'
      · simp [ha']
      · simp only [ha', decide_False]
        exact ih

theorem find_append_other (k k' : PyKey) (v : PyVal) (h : k' ≠ k) :
    ∀ kvs : List (PyKey × PyVal),
      List.find? (fun kv => kv.1 = k') (kvs ++ [(k, v)])
        = List.find? (fun kv => kv.1 = k') kvs := by
  intro kvs
  induction kvs with
  | nil =>
    have h1 : decide (k = k') = false := by
      simp only [decide_eq_false_iff_not]
      exact fun hc => h (hc ▸ rfl)
    simp [List.find?, h1]
  | cons kv rest ih =>
    rcases kv with ⟨a, b⟩
    simp only [List.cons_append, List.find?]
    by_cases ha : a = k'
    · simp [ha]
    · simp only [ha, decide_False]
      exact ih

theorem dictGet_dictSet_other (k k' : PyKey) (v : PyVal) (h : k' ≠ k)
    (kvs : List (PyKey × PyVal)) :
    dictGet (dictSet kvs k v) k' = dictGet kvs k' := by
  rw [dictSet]
  by_cases hany : kvs.any (fun kv => kv.1 = k)
  · rw [if_pos hany, dictGet, find_map_replace k k' v h kvs]
    rfl
  · rw [if_neg hany, dictGet, find_append_other k k' v h kvs]
    rfl

/-- C10: save_json_results installs the metadata record directly on the
mapping the caller passed in (an in-place mutation, returned here as the
first component), silently overwriting any pre-existing metadata entry;
all other entries are unchanged; and whenever the pre-existing metadata
entry differs from the new record, the mapping held by the caller after the call
differs from what was passed. -/
theorem C10_save_json_results_frame (now_iso now_stamp filename_base : String)
    (data_dict : List (PyKey × PyVal)) (curve_label : Option String)
    (hpre : dictGet data_dict (.strKey "metadata") ≠ some (metaRecord now_iso curve_label)) :
    dictGet (save_json_results now_iso now_stamp filename_base data_dict curve_label).1
        (.strKey "metadata") = some (metaRecord now_iso curve_label) ∧
    (∀ k, k ≠ PyKey.strKey "metadata" →
      dictGet (save_json_results now_iso now_stamp filename_base data_dict curve_label).1 k
        = dictGet data_dict k) ∧
    (save_json_results now_iso now_stamp filename_base data_dict curve_label).1 ≠ data_dict := by
  have hfst : (save_json_results now_iso now_stamp filename_base data_dict curve_label).1
      = dictSet data_dict (.strKey "metadata") (metaRecord now_iso curve_label) := rfl
  rw [hfst]
  refine ⟨dictGet_dictSet_same _ _ _,
    fun k hk => dictGet_dictSet_other _ k _ hk _, ?_⟩
  intro heq
  exact hpre (heq ▸ dictGet_dictSet_same (PyKey.strKey "metadata")
    (metaRecord now_iso curve_label) data_dict)

/-- Witness for C10 at a concrete call: base mapping with one entry x = 1
and no metadata entry, curve label 37a1. -/
theorem C10_save_json_results_frame_witness :
    dictGet [(PyKey.strKey "x", PyVal.int 1)] (.strKey "metadata")
        ≠ some (metaRecord "2024-01-01T00:00:00" (some "37a1")) ∧
    (dictGet (save_json_results "2024-01-01T00:00:00" "20240101_000000" "principal_part"
        [(PyKey.strKey "x", PyVal.int 1)] (some "37a1")).1 (.strKey "metadata")
      = some (metaRecord "2024-01-01T00:00:00" (some "37a1")) ∧
    (∀ k, k ≠ PyKey.strKey "metadata" →
      dictGet (save_json_results "2024-01-01T00:00:00" "20240101_000000" "principal_part"
        [(PyKey.strKey "x", PyVal.int 1)] (some "37a1")).1 k
        = dictGet [(PyKey.strKey "x", PyVal.int 1)] k) ∧
    (save_json_results "2024-01-01T00:00:00" "20240101_000000" "principal_part"
        [(PyKey.strKey "x", PyVal.int 1)] (some "37a1")).1
      ≠ [(PyKey.strKey "x", PyVal.int 1)]) :=
  ⟨by simp [dictGet, List.find?],
   C10_save_json_results_frame "2024-01-01T00:00:00" "20240101_000000" "principal_part"
     [(PyKey.strKey "x", PyVal.int 1)] (some "37a1") (by simp [dictGet, List.find?])⟩

/-! ## Latest-file selection (`view_results.py`, lines 14-30)

Python source of `load_latest_json` (and `load_latest_npz`, identical up
to the extension):
```
files = glob(pattern)
if not files:
    return None
files.sort(key=lambda x: x.split("_")[-1].replace(".json", ""))
with open(files[-1]) as f:
    return json.load(f), files[-1]
```
`glob` and file reading are filesystem effects: the matched file list
enters as the parameter `files` and the parsed content of each file as
the function `contents`.  Python string operations are modelled
structurally over the character list of the string, and the stable
Python `list.sort` with a key is modelled by the stable insertion sort
of Mathlib
under the same key ordering. -/

/-- Python `s.split(c)` for a one-character separator: splits at every
occurrence, keeping empty pieces. -/
def splitOnChar (c : Char) (s : List Char) : List (List Char) :=
  match s with
  | [] => [[]]
  | x :: xs =>
    match splitOnChar c xs with
    | [] => [[]]
    | y :: ys => if x = c then [] :: y :: ys else (x :: y) :: ys

/-- Python `s.replace(old, "")`: left-to-right removal of every
(non-overlapping) occurrence of `old`.  The fuel argument only bounds
the recursion; `removeAll` passes the length of `s`, which always
suffices because every step either consumes at least one character or
moves past one. -/
def removeAllAux (pat : List Char) : Nat → List Char → List Char
  | 0, s => s
  | _ + 1, [] => []
  | fuel + 1, x :: xs =>
    if pat ≠ [] ∧ pat.isPrefixOf (x :: xs) then
      removeAllAux pat fuel ((x :: xs).drop pat.length)
    else
      x :: removeAllAux pat fuel xs

def removeAll (pat s : List Char) : List Char :=
  removeAllAux pat s.length s

/-- Python string comparison (used by `list.sort` on the keys):
lexicographic on code points. -/
def lexLe (a b : List Char) : Bool :=
  match a, b with
  | [], _ => true
  | _ :: _, [] => false
  | x :: xs, y :: ys => if x < y then true else if y < x then false else lexLe xs ys

/-- The sort key of `load_latest_json` (`view_results.py`, line 20):
`x.split("_")[-1].replace(".json", "")` — the text after the LAST
underscore of the whole path, with the extension removed.  For the
filename grammar `<kind>[_<label>]_<YYYYMMDD>_<HHMMSS>.json` the
timestamp itself contains an underscore, so this key is only the
`HHMMSS` half — the date `YYYYMMDD` is not part of the key. -/
def json_sort_key (x : String) : List Char :=
  removeAll ".json".data ((splitOnChar '_' x.data).getLastD [])

/-- The sort key of `load_latest_npz` (`view_results.py`, line 29). -/
def npz_sort_key (x : String) : List Char :=
  removeAll ".npz".data ((splitOnChar '_' x.data).getLastD [])

/-- Embeds `load_latest_json` (`view_results.py`, lines 14-22): absent
when no file matches, otherwise the last element of the stable ascending
sort of the matches under the key above, paired with its parsed
content. -/
def load_latest_json {α : Type} (contents : String → α) (files : List String) :
    Option (α × String) :=
  match files with
  | [] => Option.none
  | _ :: _ =>
    match (files.insertionSort (fun a b => lexLe (json_sort_key a) (json_sort_key b) = true)).getLast? with
    | some f => some (contents f, f)
    | Option.none => Option.none

/-- Embeds `load_latest_npz` (`view_results.py`, lines 24-30). -/
def load_latest_npz {α : Type} (contents : String → α) (files : List String) :
    Option (α × String) :=
  match files with
  | [] => Option.none
  | _ :: _ =>
    match (files.insertionSort (fun a b => lexLe (npz_sort_key a) (npz_sort_key b) = true)).getLast? with
    | some f => some (contents f, f)
    | Option.none => Option.none

/-- C1 (evaluation at the failing input): of two matching archives with
timestamps 20240102_000000 (chronologically latest) and 20240101_120000
(older), both loaders return the OLDER file — the sort key keeps only
the text after the last underscore ("000000" versus "120000"), dropping
the date half of the timestamp — contradicting the claim (and the
docstrings of the functions themselves) that the most recent file is loaded. -/
theorem C1_latest_file_bug :
    load_latest_json (fun s => s)
      ["data/renorm_matrix_20240102_000000.json", "data/renorm_matrix_20240101_120000.json"]
      = some ("data/renorm_matrix_20240101_120000.json",
              "data/renorm_matrix_20240101_120000.json") ∧
    load_latest_npz (fun s => s)
      ["data/renorm_matrix_20240102_000000.npz", "data/renorm_matrix_20240101_120000.npz"]
      = some ("data/renorm_matrix_20240101_120000.npz",
              "data/renorm_matrix_20240101_120000.npz") := by
  constructor <;> decide
